import Mathlib

/-!
The repository discovery and manifest pipeline of github2mr: a shallow embedding of
`main.go`.  Go strings are modelled as lists of Unicode
code points (`Str`); every string the program handles is valid UTF-8, on which
byte-wise substring search, replacement and comparison coincide with their
code-point-wise counterparts.
-/

namespace Github2mr

/-- A Go string, as the sequence of its code points. -/
abbrev Str := List Char

/-! ## The `strings` and `unicode` routines used by `main.go` -/

/-- ASCII branch of `unicode.ToLower`: `'A'..'Z'` are shifted by `'a' - 'A'`. -/
def asciiLower (c : Char) : Char :=
  if 65 ≤ c.toNat ∧ c.toNat ≤ 90 then Char.ofNat (c.toNat + 32) else c

/-- Go `unicode.ToLower`: code points up to `MaxASCII` take the ASCII branch, the
others are looked up in the Unicode case tables, which are the parameter `caseTable`. -/
def unicodeToLower (caseTable : Char → Char) (c : Char) : Char :=
  if c.toNat ≤ 127 then asciiLower c else caseTable c

/-- Go `strings.ToLower`: every code point mapped through `unicode.ToLower`. -/
def stringsToLower (caseTable : Char → Char) (s : Str) : Str :=
  s.map (unicodeToLower caseTable)

/-- Go `unicode.IsSpace`: the Latin-1 spaces and the `White_Space` table. -/
def unicodeIsSpace (c : Char) : Bool :=
  let n := c.toNat
  (9 ≤ n && n ≤ 13) || n == 32 || n == 133 || n == 160 || n == 5760 ||
    (8192 ≤ n && n ≤ 8202) || n == 8232 || n == 8233 || n == 8239 || n == 8287 ||
    n == 12288

/-- Go `strings.TrimSpace`: leading and trailing white space removed. -/
def stringsTrimSpace (s : Str) : Str :=
  ((s.dropWhile unicodeIsSpace).reverse.dropWhile unicodeIsSpace).reverse

/-- Go `strings.Split(s, sep)` for a one-character separator: the pieces between
the separators; the empty string gives one empty piece. -/
def stringsSplit (sep : Char) : Str → List Str
  | [] => [[]]
  | c :: cs =>
    if c = sep then [] :: stringsSplit sep cs
    else
      match stringsSplit sep cs with
      | [] => [[c]]
      | p :: ps => (c :: p) :: ps

/-- Go `strings.HasPrefix`. -/
def stringsHasPrefix : Str → Str → Bool
  | _, [] => true
  | [], _ :: _ => false
  | c :: cs, p :: ps => c == p && stringsHasPrefix cs ps

/-- Go `strings.HasSuffix`. -/
def stringsHasSuffix (s suffix : Str) : Bool :=
  stringsHasPrefix s.reverse suffix.reverse

/-- Go `strings.Contains(s, substr)`: `substr` occurs somewhere in `s`. -/
def stringsContains : Str → Str → Bool
  | [], substr => stringsHasPrefix [] substr
  | c :: cs, substr => stringsHasPrefix (c :: cs) substr || stringsContains cs substr

/-- Scanning loop of `strings.ReplaceAll` for a non-empty `old`: `skip` counts the
characters of the current match still to be passed over. -/
def replaceScan (old new : Str) : Nat → Str → Str
  | _, [] => []
  | skip + 1, _ :: cs => replaceScan old new skip cs
  | 0, c :: cs =>
    if stringsHasPrefix (c :: cs) old then new ++ replaceScan old new (old.length - 1) cs
    else c :: replaceScan old new 0 cs

/-- Go `strings.ReplaceAll(s, old, new)` for a non-empty `old`: the leftmost
non-overlapping occurrences of `old`, found left to right, become `new`. -/
def stringsReplaceAll (s old new : Str) : Str :=
  replaceScan old new 0 s

/-- Go string comparison `a < b`: byte-wise lexicographic order, which on UTF-8 is
the lexicographic order of the code points. -/
def strLess : Str → Str → Bool
  | [], [] => false
  | [], _ :: _ => true
  | _ :: _, [] => false
  | a :: as, b :: bs =>
    if a.toNat < b.toNat then true
    else if b.toNat < a.toNat then false
    else strLess as bs

/-! ## Data model -/

/-- The fields of go-github's `Repository` that `main.go` reads. -/
structure Repository where
  FullName : Str
  Archived : Bool
  SSHURL : Str
  CloneURL : Str
deriving DecidableEq, Repr

/-- The structure `Repo` used for template expansion. -/
structure Repo where
  Prefix : Str
  Name : Str
  Source : Str
deriving DecidableEq, Repr

/-- One answer of a paged listing call: the repositories of the page and
`resp.NextPage` (0 when there is no further page). -/
structure Page where
  repos : List Repository
  nextPage : Nat

/-- The remote host as reached through the go-github client. Each field is one API
call; an `Except.error` carries the text of the Go error. -/
structure Host where
  usersGet : Str → Str → Str → Except Str Str
  reposList : Str → Nat → Nat → Except Str Page
  orgsList : Except Str (List Str)
  reposListByOrg : Str → Str → Nat → Nat → Except Str Page

/-- The command-line flags of `main`. -/
structure Flags where
  archived : Bool
  api : Str
  authHeader : Bool
  exclude : Str
  getOrgs : Str
  getPersonal : Str
  http : Bool
  ssh : Bool
  output : Str
  dirPrefix : Str
  token : Str
  versionCmd : Bool

/-- The process environment and the library routines `main` relies on:
`GITHUB_TOKEN` and `HOME` (empty when unset), `url.Parse` followed by `Hostname`
(`none` when parsing fails), and `os.Create` (the error text when it fails). -/
structure Env where
  githubToken : Str
  home : Str
  urlHostname : Str → Option Str
  urlParseError : Str → Option Str
  osCreate : Str → Option Str

/-- Strict weak ordering, the requirement `sort.Slice` puts on its `less`. -/
structure StrictWeakOrder {α : Type} (less : α → α → Bool) : Prop where
  irrefl : ∀ a, less a a = false
  trans : ∀ a b c, less a b = true → less b c = true → less a c = true
  incomp : ∀ a b c, less a b = false → less b c = false → less a c = false

/-- The type of Go `sort.Slice`: from the `less` function and the slice to the
slice as it is left. -/
abbrev SliceSort (α : Type) := (α → α → Bool) → List α → List α

/-- The documented contract of Go `sort.Slice`: the result is a rearrangement of
the slice in which no element is `less` than one before it. The order of elements
that compare equal is not specified (the sort is not guaranteed to be stable). -/
structure SortContract {α : Type} (sortSlice : SliceSort α) : Prop where
  perm : ∀ less l, (sortSlice less l).Perm l
  sorted : ∀ less, StrictWeakOrder less →
    ∀ l, (sortSlice less l).Pairwise (fun a b => less b a = false)

/-! ## Fetching -/

/-- The number of repos to fetch from the API at a time. -/
def pageSize : Nat := 50

/-- Our version number, set for release-builds. -/
def version : Str := "unreleased".toList

/-- The address `Login` hands to `url.Parse`: a custom URL without the versioned
API-suffix gets it added. -/
def loginEndpoint (api : Str) : Str :=
  if api ≠ "https://api.github.com/".toList then
    if ¬ stringsHasSuffix api "/api/v3/".toList then
      let api := if ¬ stringsHasSuffix api "/".toList then api ++ "/".toList else api
      api ++ "api/v3/".toList
    else api
  else api

/-- Go `Login`: `none` on success, else the error. -/
def Login (env : Env) (h : Host) (api accessToken tokenType : Str) : Option Str :=
  let api := loginEndpoint api
  match env.urlParseError api with
  | some err => some err
  | none =>
    match h.usersGet api accessToken tokenType with
    | .error err => some err
    | .ok login =>
      if login = [] then
        some "we failed to find our username, which suggests our login failed".toList
      else none

/-- The loop of `getPersonalRepos`: `page` is `opt.Page`. `none` when `fuel`
iterations did not reach a last page. -/
def personalLoop (h : Host) (fetch : Str) :
    Nat → Nat → List Repository → Option (List Repository × Option Str)
  | 0, _, _ => none
  | fuel + 1, page, results =>
    match h.reposList fetch page pageSize with
    | .error err => some (results, some err)
    | .ok resp =>
      if resp.nextPage = 0 then some (results ++ resp.repos, none)
      else personalLoop h fetch fuel resp.nextPage (results ++ resp.repos)

/-- Go `getPersonalRepos`: the results and the error, if any. -/
def getPersonalRepos (h : Host) (fetch : Str) (fuel : Nat) :
    Option (List Repository × Option Str) :=
  personalLoop h fetch fuel 0 []

/-- The inner loop of `getOrganizationalRepositores` for one organization. Returns
the results, the value `opt.Page` is left with, and the error, if any. -/
def orgPageLoop (h : Host) (fetch org : Str) :
    Nat → Nat → List Repository → Option (List Repository × Nat × Option Str)
  | 0, _, _ => none
  | fuel + 1, page, results =>
    match h.reposListByOrg org fetch page pageSize with
    | .error err => some (results, page, some err)
    | .ok resp =>
      if resp.nextPage = 0 then some (results ++ resp.repos, page, none)
      else orgPageLoop h fetch org fuel resp.nextPage (results ++ resp.repos)

/-- The outer loop of `getOrganizationalRepositores`. The options value `opt` is
created once before the loop, so `opt.Page` is carried from one organization to
the next. -/
def orgsLoop (h : Host) (fetch : Str) (fuel : Nat) :
    List Str → Nat → List Repository → Option (List Repository × Option Str)
  | [], _, results => some (results, none)
  | org :: rest, page, results =>
    match orgPageLoop h fetch org fuel page results with
    | none => none
    | some (results, _, some err) => some (results, some err)
    | some (results, page, none) => orgsLoop h fetch fuel rest page results

/-- Go `getOrganizationalRepositores`. -/
def getOrganizationalRepositores (h : Host) (fetch : Str) (fuel : Nat) :
    Option (List Repository × Option Str) :=
  match h.orgsList with
  | .error err => some ([], some err)
  | .ok orgs => orgsLoop h fetch fuel orgs 0 []

/-- The host seen by a personal-style retrieval that is run against one
organization alone. -/
def orgAsPersonal (h : Host) (org : Str) : Host :=
  { h with reposList := h.reposListByOrg org }

/-! ## Filtering and formatting -/

/-- The comparator handed to `sort.Slice`: case-insensitive on the full name. -/
def lessFullName (caseTable : Char → Char) (x y : Repository) : Bool :=
  let a := stringsToLower caseTable x.FullName
  let b := stringsToLower caseTable y.FullName
  strLess a b

/-- The default prefix computation of `main`. `none` stands for the nil
dereference when `url.Parse` fails. -/
def repoPrefix (env : Env) (dirPrefix api : Str) : Option Str :=
  if dirPrefix = [] then
    match env.urlHostname api with
    | none => none
    | some host =>
      let host := if host = "api.github.com".toList then "github.com".toList else host
      some (env.home ++ "/Repos/".toList ++ host)
  else some dirPrefix

/-- Clone-type selection and the optional `ssh://` prefix. -/
def selectClone (f : Flags) (repo : Repository) : Str :=
  let clone := if f.http then repo.CloneURL else repo.SSHURL
  if f.ssh then "ssh://".toList ++ clone else clone

/-- The text the hack looks for. -/
def quirkOld : Str := ":4444:".toList

/-- The text the hack puts in its place. -/
def quirkNew : Str := ":4444/".toList

/-- The value of `clone` after the `:4444:` hack. -/
def cloneURL (f : Flags) (repo : Repository) : Str :=
  stringsReplaceAll (selectClone f repo) quirkOld quirkNew

/-- The exclusion loop: the final value of `skip`. -/
def skipLoop (caseTable : Char → Char) (clone : Str) : List Str → Bool → Bool
  | [], skip => skip
  | exc :: rest, skip =>
    let exc := stringsTrimSpace exc
    if exc.length > 0 ∧
        stringsContains (stringsToLower caseTable clone) (stringsToLower caseTable exc) then
      skipLoop caseTable clone rest true
    else skipLoop caseTable clone rest skip

/-- One iteration of the formatting loop: `none` when the loop continues without
appending. -/
def formatRepo (caseTable : Char → Char) (f : Flags) (pfx : Str) (excluded : List Str)
    (repo : Repository) : Option Repo :=
  if repo.Archived ∧ ¬ f.archived then none
  else
    let clone := cloneURL f repo
    if skipLoop caseTable clone excluded false then none
    else some { Prefix := pfx, Name := repo.FullName, Source := clone }

/-- The part of `main` from combining the fetched lists to the list `repos`. -/
def manifestEntries (sortSlice : SliceSort Repository) (caseTable : Char → Char) (f : Flags)
    (pfx : Str) (personal orgs : List Repository) : List Repo :=
  let all := personal ++ orgs
  let all := sortSlice (lessFullName caseTable) all
  let excluded := stringsSplit ',' f.exclude
  all.filterMap (formatRepo caseTable f pfx excluded)

/-! ## Rendering -/

/-- The fields of `Repo` a template action can select. -/
inductive Field where
  | Prefix
  | Name
  | Source

/-- Nodes inside the `range` body of the template. -/
inductive ItemNode where
  | text (s : Str)
  | field (fld : Field)

/-- Top-level nodes of the template. -/
inductive Node where
  | text (s : Str)
  | lenDot
  | rangeDot (body : List ItemNode)

/-- The parsed form of the template text `tmpl` of `main`. -/
def tmpl : List Node :=
  [ .text "# Generated by github2mr - ".toList,
    .lenDot,
    .text " repositories\n\n".toList,
    .rangeDot
      [ .text "\n[".toList, .field .Prefix, .text "/".toList, .field .Name,
        .text "]\ncheckout = git clone ".toList, .field .Source, .text "\n".toList ],
    .text "\n".toList ]

/-- Field selection. -/
def Field.get (e : Repo) : Field → Str
  | .Prefix => e.Prefix
  | .Name => e.Name
  | .Source => e.Source

/-- Execution of one node of a `range` body on the element `e`. -/
def execItem (e : Repo) : ItemNode → Str
  | .text s => s
  | .field fld => fld.get e

/-- Execution of one top-level node on the data `repos`. -/
def execNode (repos : List Repo) : Node → Str
  | .text s => s
  | .lenDot => Nat.toDigits 10 repos.length
  | .rangeDot body => (repos.map (fun e => (body.map (execItem e)).flatten)).flatten

/-- The text `t.Execute` writes to `out`. -/
def render (repos : List Repo) : Str :=
  (tmpl.map (execNode repos)).flatten

/-! ## The entry point -/

/-- What a run does that can be seen from outside. -/
inductive Event where
  | stdout (s : Str)
  | stderr (s : Str)
  | callLogin (api tok : Str)
  | callGetPersonalRepos (fetch : Str)
  | callGetOrganizationalRepositores (fetch : Str)
  | fileWrite (path bytes : Str)
  | nilDereference
deriving DecidableEq, Repr

/-- The diagnostic of the scope validation. -/
def validSettingsMsg : Str :=
  "Valid settings are 'public', 'private', 'none', or 'all'\n".toList

/-- The test both scope validations apply to their flag. -/
def badScope (s : Str) : Bool :=
  s ≠ "all".toList ∧ s ≠ "none".toList ∧ s ≠ "public".toList ∧ s ≠ "private".toList

/-- The tail of `main`: from the prefix computation to the output. -/
def mainOutput (sortSlice : SliceSort Repository) (caseTable : Char → Char) (f : Flags)
    (env : Env) (personal orgs : List Repository) : List Event :=
  match repoPrefix env f.dirPrefix f.api with
  | none => [.nilDereference]
  | some pfx =>
    let out := render (manifestEntries sortSlice caseTable f pfx personal orgs)
    if f.output ≠ [] then
      match env.osCreate f.output with
      | some err =>
        [.stderr ("failed to open ".toList ++ f.output ++ ":".toList ++ err ++ "\n".toList)]
      | none => [.fileWrite f.output out]
    else [.stdout (out ++ "\n".toList)]

/-- The organizational fetch of `main` and what follows it. -/
def mainOrgs (sortSlice : SliceSort Repository) (caseTable : Char → Char) (f : Flags)
    (env : Env) (h : Host) (fuel : Nat) (personal : List Repository) :
    Option (List Event) :=
  if f.getOrgs ≠ "none".toList then
    match getOrganizationalRepositores h f.getOrgs fuel with
    | none => none
    | some (_, some err) =>
      some [.callGetOrganizationalRepositores f.getOrgs,
        .stderr ("Failed to fetch organizational repositories: ".toList ++ err ++ "\n".toList)]
    | some (orgs, none) =>
      some (.callGetOrganizationalRepositores f.getOrgs ::
        mainOutput sortSlice caseTable f env personal orgs)
  else some (mainOutput sortSlice caseTable f env personal [])

/-- The personal fetch of `main` and what follows it. -/
def mainPersonal (sortSlice : SliceSort Repository) (caseTable : Char → Char) (f : Flags)
    (env : Env) (h : Host) (fuel : Nat) : Option (List Event) :=
  if f.getPersonal ≠ "none".toList then
    match getPersonalRepos h f.getPersonal fuel with
    | none => none
    | some (_, some err) =>
      some [.callGetPersonalRepos f.getPersonal,
        .stderr ("Failed to fetch personal repository list: ".toList ++ err ++ "\n".toList)]
    | some (personal, none) =>
      (mainOrgs sortSlice caseTable f env h fuel personal).map
        (fun t => .callGetPersonalRepos f.getPersonal :: t)
  else mainOrgs sortSlice caseTable f env h fuel []

/-- Go `main`: the events of a run, `none` when a fetch loop does not end within
`fuel` page requests. -/
def main (sortSlice : SliceSort Repository) (caseTable : Char → Char) (f : Flags)
    (env : Env) (h : Host) (fuel : Nat) : Option (List Event) :=
  if f.versionCmd then
    some [.stdout ("github2mr ".toList ++ version ++ "\n".toList)]
  else if badScope f.getPersonal then some [.stderr validSettingsMsg]
  else if badScope f.getOrgs then some [.stderr validSettingsMsg]
  else
    let tok := if f.token = [] then env.githubToken else f.token
    if tok = [] then some [.stdout "Please specify your github token!\n".toList]
    else
      let tokenType := if f.authHeader then "token".toList else []
      match Login env h f.api tok tokenType with
      | some err =>
        some [.callLogin f.api tok,
          .stderr ("Login error - is your token set/correct? ".toList ++ err ++ "\n".toList)]
      | none =>
        (mainPersonal sortSlice caseTable f env h fuel).map (fun t => .callLogin f.api tok :: t)

/-! ## A routine meeting the contract of `sort.Slice` -/

/-- Insertion of `x` into a sorted list, before the first element that is not
`less` than `x`. -/
def insertSorted {α : Type} (less : α → α → Bool) (x : α) : List α → List α
  | [] => [x]
  | a :: l => if less a x then a :: insertSorted less x l else x :: a :: l

/-- Insertion sort, which keeps the order of elements that compare equal. -/
def insertionSort {α : Type} : SliceSort α
  | _, [] => []
  | less, a :: l => insertSorted less a (insertionSort less l)

/-- How the hack may change one character: not at all, or a colon into a slash. -/
def QuirkStep (a b : Char) : Prop := b = a ∨ (a = ':' ∧ b = '/')

/-! ## Notions of the specification -/

/-- The exclusion terms: the exclusion string split on commas, each piece trimmed,
empty pieces ignored. -/
def exclusionTerms (exclude : Str) : List Str :=
  ((stringsSplit ',' exclude).map stringsTrimSpace).filter (fun t => t ≠ [])

/-- The clone URL, case-folded, contains a case-folded exclusion term. -/
def MatchesExclusion (caseTable : Char → Char) (exclude clone : Str) : Prop :=
  ∃ t ∈ exclusionTerms exclude,
    stringsToLower caseTable t <:+: stringsToLower caseTable clone

/-- The entry the formatting loop builds for a repository it keeps. -/
def entryOf (f : Flags) (pfx : Str) (repo : Repository) : Repo :=
  { Prefix := pfx, Name := repo.FullName, Source := cloneURL f repo }

/-- A repository is present in the manifest: the loop appends an entry for it and
that entry is in the list `repos`. -/
def Present (sortSlice : SliceSort Repository) (caseTable : Char → Char) (f : Flags) (pfx : Str)
    (personal orgs : List Repository) (repo : Repository) : Prop :=
  ∃ e, formatRepo caseTable f pfx (stringsSplit ',' f.exclude) repo = some e ∧
    e ∈ manifestEntries sortSlice caseTable f pfx personal orgs

/-- Case-insensitive order on names: `a` is before `b` or they fold to the same. -/
def NameLE (caseTable : Char → Char) (a b : Str) : Prop :=
  strLess (stringsToLower caseTable a) (stringsToLower caseTable b) = true ∨
    stringsToLower caseTable a = stringsToLower caseTable b

/-- The manifest text read line by line: every line with its line end. -/
def unlines (ls : List Str) : Str :=
  (ls.map (fun l => l ++ ['\n'])).flatten

/-- The header line of the manifest for `n` entries. -/
def headerLine (n : Nat) : Str :=
  "# Generated by github2mr - ".toList ++ Nat.toDigits 10 n ++ " repositories".toList

/-- The two lines of the block of one entry. -/
def entryBlock (e : Repo) : List Str :=
  [ "[".toList ++ e.Prefix ++ "/".toList ++ e.Name ++ "]".toList,
    "checkout = git clone ".toList ++ e.Source ]

/-! ## Sample inputs -/

/-- The default values of the flags. -/
def defaultFlags : Flags :=
  { archived := false, api := "https://api.github.com/".toList, authHeader := false,
    exclude := [], getOrgs := "all".toList, getPersonal := "all".toList, http := false,
    ssh := false, output := [], dirPrefix := [], token := [], versionCmd := false }

/-- A repository, not archived. -/
def repoFoo : Repository :=
  { FullName := "alice/foo".toList, Archived := false,
    SSHURL := "git@host:alice/foo.git".toList,
    CloneURL := "https://host/alice/foo.git".toList }

/-- An archived repository. -/
def repoBar : Repository :=
  { FullName := "alice/Bar".toList, Archived := true,
    SSHURL := "git@host:alice/Bar.git".toList,
    CloneURL := "https://host/alice/Bar.git".toList }

/-- A repository of an organization. -/
def repoOrg : Repository :=
  { FullName := "Acme/tool".toList, Archived := false,
    SSHURL := "git@host:Acme/tool.git".toList,
    CloneURL := "https://host/Acme/tool.git".toList }

/-- A repository whose clone address holds two overlapping `:4444:`. -/
def repoOverlap : Repository :=
  { FullName := "alice/port".toList, Archived := false,
    SSHURL := "git@host:4444:4444:alice/port.git".toList,
    CloneURL := "https://host/alice/port.git".toList }

/-- The accepted values of the two scope flags. -/
def validScopes : List Str :=
  ["public".toList, "private".toList, "none".toList, "all".toList]

/-- A host with two organizations: `A` has two pages, `B` has one. A page past the
last one is empty. -/
def pagedHost : Host :=
  { usersGet := fun _ _ _ => .ok "alice".toList,
    reposList := fun _ _ _ => .ok ⟨[repoFoo], 0⟩,
    orgsList := .ok ["A".toList, "B".toList],
    reposListByOrg := fun org _ page _ =>
      if org = "A".toList then
        if page ≤ 1 then .ok ⟨[repoOrg], 2⟩
        else if page = 2 then .ok ⟨[repoBar], 0⟩
        else .ok ⟨[], 0⟩
      else if org = "B".toList then
        if page ≤ 1 then .ok ⟨[repoOverlap], 0⟩ else .ok ⟨[], 0⟩
      else .error "404 Not Found".toList }

/-- The part of an address after `://`. -/
def afterScheme : Str → Str
  | [] => []
  | c :: cs =>
    if stringsHasPrefix (c :: cs) "://".toList then cs.drop 2 else afterScheme cs

/-- A sample environment. Its host-name lookup covers addresses of the shape
`scheme://host[:port][/path]`. -/
def sampleEnv : Env :=
  { githubToken := "secret".toList,
    home := "/home/alice".toList,
    urlHostname := fun api =>
      some ((afterScheme api).takeWhile (fun c => c ≠ '/' ∧ c ≠ ':' ∧ c ≠ '?' ∧ c ≠ '#')),
    urlParseError := fun _ => none,
    osCreate := fun _ => none }

/-! ## Facts about the string routines -/

theorem char_toNat_inj {a b : Char} (h : a.toNat = b.toNat) : a = b := by
  apply Char.ext
  apply UInt32.ext
  exact h

theorem strLess_irrefl (a : Str) : strLess a a = false := by
  induction a with
  | nil => rfl
  | cons c cs ih => simp [strLess, ih]

theorem strLess_trans : ∀ a b c : Str,
    strLess a b = true → strLess b c = true → strLess a c = true
  | [], [], _ => by simp [strLess]
  | [], _ :: _, [] => by simp [strLess]
  | [], _ :: _, _ :: _ => by simp [strLess]
  | _ :: _, [], _ => by simp [strLess]
  | _ :: _, _ :: _, [] => by simp [strLess]
  | x :: xs, y :: ys, z :: zs => by
    have ih := strLess_trans xs ys zs
    simp only [strLess]
    split_ifs <;> first | omega | simp | exact ih

theorem strLess_incomp : ∀ a b c : Str,
    strLess a b = false → strLess b c = false → strLess a c = false
  | [], [], _ => by simp [strLess]
  | [], _ :: _, _ => by simp [strLess]
  | _ :: _, [], [] => by simp [strLess]
  | _ :: _, [], _ :: _ => by simp [strLess]
  | _ :: _, _ :: _, [] => by simp [strLess]
  | x :: xs, y :: ys, z :: zs => by
    have ih := strLess_incomp xs ys zs
    simp only [strLess]
    split_ifs <;> first | omega | simp | exact ih

theorem strLess_antisymm : ∀ a b : Str,
    strLess a b = false → strLess b a = false → a = b
  | [], [] => by simp
  | [], _ :: _ => by simp [strLess]
  | _ :: _, [] => by simp [strLess]
  | x :: xs, y :: ys => by
    have ih := strLess_antisymm xs ys
    intro p q
    by_cases h1 : x.toNat < y.toNat
    · simp [strLess, h1] at p
    · by_cases h2 : y.toNat < x.toNat
      · simp [strLess, h2] at q
      · simp only [strLess, h1, h2, if_false] at p q
        rw [ih p q, char_toNat_inj (show x.toNat = y.toNat by omega)]

theorem lessFullName_strictWeak (caseTable : Char → Char) :
    StrictWeakOrder (lessFullName caseTable) where
  irrefl _ := strLess_irrefl _
  trans _ _ _ := strLess_trans _ _ _
  incomp _ _ _ := strLess_incomp _ _ _

theorem stringsHasPrefix_iff : ∀ s p : Str, stringsHasPrefix s p = true ↔ p <+: s
  | _, [] => by simp [stringsHasPrefix]
  | [], _ :: _ => by simp [stringsHasPrefix]
  | c :: cs, p :: ps => by
    simp only [stringsHasPrefix, Bool.and_eq_true, beq_iff_eq, stringsHasPrefix_iff cs ps,
      List.cons_prefix_cons]
    constructor <;> rintro ⟨h1, h2⟩ <;> exact ⟨h1.symm, h2⟩

theorem stringsContains_iff : ∀ s sub : Str, stringsContains s sub = true ↔ sub <:+: s
  | [], sub => by
    simp [stringsContains, stringsHasPrefix_iff]
  | c :: cs, sub => by
    simp only [stringsContains, Bool.or_eq_true, stringsHasPrefix_iff,
      stringsContains_iff cs sub, List.infix_cons_iff]

theorem replaceScan_skip (old new : Str) : ∀ (s : Str) (k : Nat),
    replaceScan old new k s = replaceScan old new 0 (s.drop k)
  | [], k => by cases k <;> simp [replaceScan]
  | _ :: _, 0 => by simp
  | c :: cs, k + 1 => by
    simp only [replaceScan, List.drop_succ_cons]
    exact replaceScan_skip old new cs k

theorem replaceAll_nil (old new : Str) : stringsReplaceAll [] old new = [] := by
  simp [stringsReplaceAll, replaceScan]

theorem replaceAll_old_append (old new rest : Str) (hold : old ≠ []) :
    stringsReplaceAll (old ++ rest) old new = new ++ stringsReplaceAll rest old new := by
  cases old with
  | nil => exact absurd rfl hold
  | cons o os =>
    have hp : stringsHasPrefix (o :: (os ++ rest)) (o :: os) = true := by
      rw [stringsHasPrefix_iff]
      exact List.prefix_append (o :: os) rest
    show replaceScan (o :: os) new 0 (o :: (os ++ rest)) = _
    rw [replaceScan, if_pos hp, replaceScan_skip]
    simp [stringsReplaceAll]

theorem replaceAll_cons (old new : Str) (c : Char) (cs : Str) (h : ¬ old <+: c :: cs) :
    stringsReplaceAll (c :: cs) old new = c :: stringsReplaceAll cs old new := by
  have hp : stringsHasPrefix (c :: cs) old = false := by
    rw [← Bool.not_eq_true, stringsHasPrefix_iff]
    exact h
  simp [stringsReplaceAll, replaceScan, hp]

/-- Case analysis along the scan of `strings.ReplaceAll`. -/
theorem replaceAll_scan_cases (old : Str) (hold : old ≠ []) (P : Str → Prop) (h0 : P [])
    (h1 : ∀ rest, P rest → P (old ++ rest))
    (h2 : ∀ c cs, ¬ old <+: c :: cs → P cs → P (c :: cs)) : ∀ s, P s := by
  intro s
  generalize hn : s.length = n
  induction n using Nat.strong_induction_on generalizing s with
  | _ n ih =>
    cases s with
    | nil => exact h0
    | cons c cs =>
      by_cases hp : old <+: c :: cs
      · obtain ⟨rest, hr⟩ := hp
        rw [← hr]
        apply h1
        have hlen : (old ++ rest).length = n := by rw [hr]; exact hn
        have hpos : 0 < old.length := List.length_pos.mpr hold
        refine ih rest.length ?_ rest rfl
        rw [List.length_append] at hlen
        omega
      · apply h2 c cs hp
        refine ih cs.length ?_ cs rfl
        simp only [List.length_cons] at hn
        omega

/-! ## Facts about the `:4444:` hack -/

theorem quirkOld_eq : quirkOld = [':', '4', '4', '4', '4', ':'] := rfl

theorem quirkNew_eq : quirkNew = [':', '4', '4', '4', '4', '/'] := rfl

theorem quirkOld_ne_nil : quirkOld ≠ [] := by simp [quirkOld_eq]

theorem quirk_forall₂ : ∀ s : Str,
    List.Forall₂ QuirkStep s (stringsReplaceAll s quirkOld quirkNew) := by
  refine replaceAll_scan_cases quirkOld quirkOld_ne_nil _ ?_ ?_ ?_
  · rw [replaceAll_nil]
    exact List.Forall₂.nil
  · intro rest ih
    rw [replaceAll_old_append _ _ _ quirkOld_ne_nil, quirkOld_eq, quirkNew_eq]
    simp only [List.cons_append, List.nil_append, List.forall₂_cons]
    exact ⟨Or.inl rfl, Or.inl rfl, Or.inl rfl, Or.inl rfl, Or.inl rfl, Or.inr ⟨rfl, rfl⟩, ih⟩
  · intro c cs hp ih
    rw [replaceAll_cons _ _ _ _ hp]
    exact List.Forall₂.cons (Or.inl rfl) ih

theorem prefix_of_quirk_forall₂ : ∀ (o s t : Str), '/' ∉ o →
    List.Forall₂ QuirkStep s t → o <+: t → o <+: s
  | [], _, _ => fun _ _ _ => List.nil_prefix
  | a :: o, s, t => by
    intro hs hst hp
    cases hst with
    | nil => simp at hp
    | cons hab hrest =>
      rw [List.cons_prefix_cons] at hp
      obtain ⟨rfl, hp⟩ := hp
      have ha : a ≠ '/' := fun h => hs (by simp [h])
      have ho : '/' ∉ o := fun h => hs (List.mem_cons_of_mem _ h)
      rcases hab with h | ⟨_, h⟩
      · rw [h, List.cons_prefix_cons]
        exact ⟨rfl, prefix_of_quirk_forall₂ o _ _ ho hrest hp⟩
      · exact absurd h ha

theorem quirk_absent : ∀ s : Str, ¬ quirkOld <:+: stringsReplaceAll s quirkOld quirkNew := by
  refine replaceAll_scan_cases quirkOld quirkOld_ne_nil _ ?_ ?_ ?_
  · rw [replaceAll_nil]
    simp [quirkOld_eq]
  · intro rest ih
    rw [replaceAll_old_append _ _ _ quirkOld_ne_nil]
    intro h
    apply ih
    rw [quirkNew_eq] at h
    simp only [List.cons_append, List.nil_append, List.infix_cons_iff] at h
    rcases h with h | h | h | h | h | h | h
    all_goals first
      | exact h
      | (rw [quirkOld_eq] at h; simp [List.cons_prefix_cons] at h)
  · intro c cs hp ih
    rw [replaceAll_cons _ _ _ _ hp, List.infix_cons_iff]
    rintro (h | h)
    · apply hp
      rw [quirkOld_eq] at h ⊢
      rw [List.cons_prefix_cons] at h ⊢
      refine ⟨h.1, prefix_of_quirk_forall₂ _ _ _ (by decide) (quirk_forall₂ cs) h.2⟩
    · exact ih h

theorem quirk_unchanged : ∀ s : Str, ¬ quirkOld <:+: s →
    stringsReplaceAll s quirkOld quirkNew = s := by
  refine replaceAll_scan_cases quirkOld quirkOld_ne_nil _ ?_ ?_ ?_
  · intro _
    exact replaceAll_nil _ _
  · intro rest _ h
    exact absurd (List.infix_append' [] quirkOld rest) h
  · intro c cs hp ih h
    rw [replaceAll_cons _ _ _ _ hp, ih]
    intro h2
    exact h (List.infix_cons h2)

theorem quirk_leftmost : ∀ pre post : Str, ¬ quirkOld <:+: pre ++ quirkOld.dropLast →
    stringsReplaceAll (pre ++ quirkOld ++ post) quirkOld quirkNew =
      pre ++ quirkNew ++ stringsReplaceAll post quirkOld quirkNew
  | [], post, _ => by
    simpa using replaceAll_old_append quirkOld quirkNew post quirkOld_ne_nil
  | c :: pre, post, h => by
    have hp : ¬ quirkOld <+: c :: pre ++ quirkOld ++ post := by
      intro hp
      apply h
      have h1 : c :: pre ++ quirkOld.dropLast <+: c :: pre ++ quirkOld ++ post := by
        rw [List.append_assoc]
        refine (List.prefix_append_right_inj _).mpr ?_
        exact (List.dropLast_prefix _).trans (List.prefix_append _ _)
      have h2 : quirkOld <+: c :: pre ++ quirkOld.dropLast := by
        refine List.prefix_of_prefix_length_le hp h1 ?_
        simp [quirkOld_eq]
      exact h2.isInfix
    have ih := quirk_leftmost pre post (fun h2 => h (List.infix_cons h2))
    have e : c :: pre ++ quirkOld ++ post = c :: (pre ++ quirkOld ++ post) := rfl
    rw [e] at hp ⊢
    rw [replaceAll_cons _ _ _ _ hp, ih]
    rfl

/-! ## Facts about sorting -/

theorem StrictWeakOrder.asymm {α : Type} {less : α → α → Bool} (h : StrictWeakOrder less)
    {a b : α} (hab : less a b = true) : less b a = false := by
  by_contra hba
  rw [Bool.not_eq_false] at hba
  have := h.trans a b a hab hba
  rw [h.irrefl a] at this
  exact Bool.false_ne_true this

theorem mem_insertSorted {α : Type} (less : α → α → Bool) (x y : α) :
    ∀ l, y ∈ insertSorted less x l ↔ y = x ∨ y ∈ l
  | [] => by simp [insertSorted]
  | a :: l => by
    unfold insertSorted
    split_ifs
    · simp only [List.mem_cons, mem_insertSorted less x y l]
      tauto
    · simp only [List.mem_cons]

theorem perm_insertSorted {α : Type} (less : α → α → Bool) (x : α) :
    ∀ l, (insertSorted less x l).Perm (x :: l)
  | [] => List.Perm.refl _
  | a :: l => by
    unfold insertSorted
    split_ifs
    · exact ((perm_insertSorted less x l).cons a).trans (List.Perm.swap x a l)
    · exact List.Perm.refl _

theorem perm_insertionSort {α : Type} (less : α → α → Bool) :
    ∀ l, (insertionSort less l).Perm l
  | [] => List.Perm.refl _
  | a :: l =>
    (perm_insertSorted less a _).trans ((perm_insertionSort less l).cons a)

theorem sorted_insertSorted {α : Type} {less : α → α → Bool} (h : StrictWeakOrder less)
    (x : α) : ∀ l, l.Pairwise (fun a b => less b a = false) →
      (insertSorted less x l).Pairwise (fun a b => less b a = false)
  | [], _ => by simp [insertSorted]
  | a :: l, hl => by
    rw [List.pairwise_cons] at hl
    unfold insertSorted
    split_ifs with hax
    · rw [List.pairwise_cons]
      refine ⟨?_, sorted_insertSorted h x l hl.2⟩
      intro z hz
      rcases (mem_insertSorted less x z l).mp hz with rfl | hz
      · exact h.asymm hax
      · exact hl.1 z hz
    · rw [Bool.not_eq_true] at hax
      rw [List.pairwise_cons]
      refine ⟨?_, List.pairwise_cons.mpr hl⟩
      intro z hz
      rcases List.mem_cons.mp hz with rfl | hz
      · exact hax
      · exact h.incomp z a x (hl.1 z hz) hax

theorem sorted_insertionSort {α : Type} {less : α → α → Bool} (h : StrictWeakOrder less) :
    ∀ l, (insertionSort less l).Pairwise (fun a b => less b a = false)
  | [] => List.Pairwise.nil
  | a :: l => sorted_insertSorted h a _ (sorted_insertionSort h l)

theorem insertionSort_contract (α : Type) : SortContract (insertionSort : SliceSort α) where
  perm := perm_insertionSort
  sorted _ h := sorted_insertionSort h

theorem skipLoop_eq (caseTable : Char → Char) (clone : Str) : ∀ (excluded : List Str)
    (skip : Bool), skipLoop caseTable clone excluded skip =
      (skip || excluded.any (fun exc =>
        decide ((stringsTrimSpace exc).length > 0) &&
          stringsContains (stringsToLower caseTable clone)
            (stringsToLower caseTable (stringsTrimSpace exc))))
  | [], skip => by simp [skipLoop]
  | exc :: rest, skip => by
    unfold skipLoop
    simp only [List.any_cons]
    split_ifs with h
    · rw [skipLoop_eq caseTable clone rest true]
      have h1 := h.1
      have h2 := h.2
      simp [h1, h2]
    · rw [skipLoop_eq caseTable clone rest skip]
      rw [not_and_or] at h
      rcases h with h | h
      · simp [h]
      · rw [Bool.not_eq_true] at h
        simp [h]

theorem skipLoop_iff (caseTable : Char → Char) (exclude clone : Str) :
    skipLoop caseTable clone (stringsSplit ',' exclude) false = true ↔
      MatchesExclusion caseTable exclude clone := by
  rw [skipLoop_eq]
  simp only [Bool.false_or, List.any_eq_true, Bool.and_eq_true, decide_eq_true_eq,
    stringsContains_iff, MatchesExclusion, exclusionTerms, List.mem_filter, List.mem_map]
  constructor
  · rintro ⟨exc, hmem, hlen, hsub⟩
    refine ⟨stringsTrimSpace exc, ⟨⟨exc, hmem, rfl⟩, ?_⟩, hsub⟩
    simpa using List.ne_nil_of_length_pos hlen
  · rintro ⟨t, ⟨⟨exc, hmem, rfl⟩, hne⟩, hsub⟩
    refine ⟨exc, hmem, ?_, hsub⟩
    have hne2 : stringsTrimSpace exc ≠ [] := by simpa using hne
    exact List.length_pos.mpr hne2

theorem formatRepo_eq_some (caseTable : Char → Char) (f : Flags) (pfx : Str)
    (repo : Repository) (e : Repo) :
    formatRepo caseTable f pfx (stringsSplit ',' f.exclude) repo = some e ↔
      (repo.Archived = true → f.archived = true) ∧
        ¬ MatchesExclusion caseTable f.exclude (cloneURL f repo) ∧ e = entryOf f pfx repo := by
  rw [← skipLoop_iff]
  unfold formatRepo entryOf
  by_cases ha : repo.Archived = true ∧ ¬ f.archived = true
  · rw [if_pos ha]
    simp only [false_iff, not_and, reduceCtorEq]
    intro h
    exact absurd (h ha.1) ha.2
  · rw [if_neg ha]
    have ha2 : repo.Archived = true → f.archived = true := by
      intro h
      by_contra h2
      exact ha ⟨h, h2⟩
    by_cases hs : skipLoop caseTable (cloneURL f repo) (stringsSplit ',' f.exclude) false = true
    · simp [hs]
    · simp only [hs, Bool.false_eq_true, if_false, Option.some.injEq, not_false_eq_true,
        true_and]
      constructor
      · intro h
        exact ⟨ha2, h.symm⟩
      · intro h
        exact h.2.symm

theorem mem_manifestEntries (sortSlice : SliceSort Repository)
    (hS : SortContract sortSlice) (caseTable : Char → Char) (f : Flags)
    (pfx : Str) (personal orgs : List Repository) (e : Repo) :
    e ∈ manifestEntries sortSlice caseTable f pfx personal orgs ↔
      ∃ repo ∈ personal ++ orgs,
        formatRepo caseTable f pfx (stringsSplit ',' f.exclude) repo = some e := by
  unfold manifestEntries
  simp only [List.mem_filterMap]
  constructor
  · rintro ⟨repo, hmem, h⟩
    exact ⟨repo, (hS.perm _ _).mem_iff.mp hmem, h⟩
  · rintro ⟨repo, hmem, h⟩
    exact ⟨repo, (hS.perm _ _).mem_iff.mpr hmem, h⟩

theorem mem_of_mem_stringsSplit (sep : Char) : ∀ (s t : Str), t ∈ stringsSplit sep s →
    ∀ c ∈ t, c ∈ s ∧ c ≠ sep
  | [], t, ht => by
    simp only [stringsSplit, List.mem_singleton] at ht
    simp [ht]
  | a :: s, t, ht => by
    have ih := mem_of_mem_stringsSplit sep s
    unfold stringsSplit at ht
    split_ifs at ht with ha
    · rcases List.mem_cons.mp ht with rfl | ht
      · simp
      · intro c hc
        exact ⟨List.mem_cons_of_mem _ (ih t ht c hc).1, (ih t ht c hc).2⟩
    · cases hsp : stringsSplit sep s with
      | nil =>
        rw [hsp] at ht
        simp only [List.mem_singleton] at ht
        subst ht
        intro c hc
        simp only [List.mem_singleton] at hc
        subst hc
        exact ⟨List.mem_cons_self _ _, ha⟩
      | cons q qs =>
        rw [hsp] at ht ih
        rcases List.mem_cons.mp ht with rfl | ht
        · intro c hc
          rcases List.mem_cons.mp hc with rfl | hc
          · exact ⟨List.mem_cons_self _ _, ha⟩
          · have := ih q (List.mem_cons_self _ _) c hc
            exact ⟨List.mem_cons_of_mem _ this.1, this.2⟩
        · intro c hc
          have := ih t (List.mem_cons_of_mem _ ht) c hc
          exact ⟨List.mem_cons_of_mem _ this.1, this.2⟩

theorem stringsTrimSpace_eq_nil (t : Str) (h : ∀ c ∈ t, unicodeIsSpace c = true) :
    stringsTrimSpace t = [] := by
  have h1 : t.dropWhile unicodeIsSpace = [] := List.dropWhile_eq_nil_iff.mpr h
  simp [stringsTrimSpace, h1]

theorem exclusionTerms_eq_nil (exclude : Str)
    (h : ∀ c ∈ exclude, c = ',' ∨ unicodeIsSpace c = true) : exclusionTerms exclude = [] := by
  unfold exclusionTerms
  rw [List.filter_eq_nil_iff]
  intro t ht
  obtain ⟨piece, hp, rfl⟩ := List.mem_map.mp ht
  have : stringsTrimSpace piece = [] := by
    apply stringsTrimSpace_eq_nil
    intro c hc
    have hc2 := mem_of_mem_stringsSplit ',' exclude piece hp c hc
    rcases h c hc2.1 with h1 | h1
    · exact absurd h1 hc2.2
    · exact h1
  simp [this]

theorem stringsToLower_ascii (caseTable : Char → Char) (s : Str)
    (h : ∀ c ∈ s, c.toNat ≤ 127) : stringsToLower caseTable s = stringsToLower id s := by
  unfold stringsToLower
  apply List.map_congr_left
  intro c hc
  simp [unicodeToLower, h c hc]

theorem entry_mem_manifest_iff (sortSlice : SliceSort Repository)
    (hS : SortContract sortSlice) (caseTable : Char → Char) (f : Flags) (pfx : Str)
    (personal orgs : List Repository) (repo : Repository) (hmem : repo ∈ personal ++ orgs)
    (harch : repo.Archived = true → f.archived = true) :
    entryOf f pfx repo ∈ manifestEntries sortSlice caseTable f pfx personal orgs ↔
      ¬ MatchesExclusion caseTable f.exclude (cloneURL f repo) := by
  rw [mem_manifestEntries sortSlice hS]
  constructor
  · rintro ⟨r2, _, h2⟩
    rw [formatRepo_eq_some] at h2
    have hsrc : cloneURL f repo = cloneURL f r2 := congrArg Repo.Source h2.2.2
    rw [hsrc]
    exact h2.2.1
  · intro h
    exact ⟨repo, hmem, (formatRepo_eq_some _ _ _ _ _).mpr ⟨harch, h, rfl⟩⟩

/-! ## Organizational fetch -/

/-- C1, the code at a failing input: on a host where organization `A` has two
pages and `B` one, `getOrganizationalRepositores` asks `B` for page 2, the page
`A` ended on, and returns none of the repositories of `B`, although the personal
paged retrieval run against each organization alone returns all of them. -/
theorem org_fetch_page_not_reset :
    getOrganizationalRepositores pagedHost "all".toList 5 = some ([repoOrg, repoBar], none) ∧
      getPersonalRepos (orgAsPersonal pagedHost "A".toList) "all".toList 5 =
        some ([repoOrg, repoBar], none) ∧
      getPersonalRepos (orgAsPersonal pagedHost "B".toList) "all".toList 5 =
        some ([repoOverlap], none) := by
  decide

/-! ## Ordering of the manifest -/

theorem nameLE_of_not_less (caseTable : Char → Char) (x y : Repository)
    (h : lessFullName caseTable y x = false) : NameLE caseTable x.FullName y.FullName := by
  unfold NameLE
  by_cases h2 : strLess (stringsToLower caseTable x.FullName)
      (stringsToLower caseTable y.FullName) = true
  · exact Or.inl h2
  · rw [Bool.not_eq_true] at h2
    exact Or.inr (strLess_antisymm _ _ h2 h)

/-- C2: whatever was fetched and whatever the settings, each entry of the final
manifest is followed by an entry whose lower-cased name is not smaller. -/
theorem manifest_sorted (sortSlice : SliceSort Repository) (hS : SortContract sortSlice)
    (caseTable : Char → Char) (f : Flags) (pfx : Str) (personal orgs : List Repository) :
    List.Chain' (fun e1 e2 => NameLE caseTable e1.Name e2.Name)
      (manifestEntries sortSlice caseTable f pfx personal orgs) := by
  apply List.Pairwise.chain'
  unfold manifestEntries
  refine List.Pairwise.filterMap _ ?_
    (hS.sorted (lessFullName caseTable) (lessFullName_strictWeak caseTable) (personal ++ orgs))
  intro x y hxy e1 h1 e2 h2
  rw [Option.mem_def, formatRepo_eq_some] at h1 h2
  rw [h1.2.2, h2.2.2]
  exact nameLE_of_not_less caseTable x y hxy

theorem manifest_sorted_witness :
    manifestEntries insertionSort id { defaultFlags with archived := true } "/r".toList
        [repoFoo, repoBar] [repoOrg] =
      [entryOf defaultFlags "/r".toList repoOrg, entryOf defaultFlags "/r".toList repoBar,
        entryOf defaultFlags "/r".toList repoFoo] ∧
    List.Chain' (fun e1 e2 => NameLE id e1.Name e2.Name)
      (manifestEntries insertionSort id { defaultFlags with archived := true } "/r".toList
        [repoFoo, repoBar] [repoOrg]) :=
  ⟨by decide, manifest_sorted insertionSort (insertionSort_contract _) id _ _ _ _⟩

/-! ## The `:4444:` hack -/

/-- C5 as stated fails: in `git@host:4444:4444:alice/port.git` the text `:4444:`
occurs at offsets 8 and 13; the second occurrence, which shares a colon with the
first, is not rewritten to `:4444/`. -/
theorem quirk_overlap_counterexample :
    selectClone defaultFlags repoOverlap =
        "git@host:4444".toList ++ quirkOld ++ "alice/port.git".toList ∧
      cloneURL defaultFlags repoOverlap = "git@host:4444/4444:alice/port.git".toList ∧
      ((cloneURL defaultFlags repoOverlap).drop "git@host:4444".toList.length).take
        quirkOld.length ≠ quirkNew := by
  decide

/-- C5, amended: the hack rewrites the occurrences of `:4444:` that a left-to-right
scan finds without overlap. The source contains no `:4444:`; it is the chosen
address itself when that contains no `:4444:`; the first occurrence is rewritten to
`:4444/` and the scan goes on behind it; and character by character the source
differs from the chosen address only in colons that became slashes. -/
theorem quirk_normalization (f : Flags) (repo : Repository) :
    ¬ quirkOld <:+: cloneURL f repo ∧
      (¬ quirkOld <:+: selectClone f repo → cloneURL f repo = selectClone f repo) ∧
      (∀ pre post : Str, selectClone f repo = pre ++ quirkOld ++ post →
        ¬ quirkOld <:+: pre ++ quirkOld.dropLast →
        cloneURL f repo = pre ++ quirkNew ++ stringsReplaceAll post quirkOld quirkNew) ∧
      List.Forall₂ QuirkStep (selectClone f repo) (cloneURL f repo) := by
  refine ⟨quirk_absent _, quirk_unchanged _, ?_, quirk_forall₂ _⟩
  intro pre post hu hpre
  unfold cloneURL
  rw [hu]
  exact quirk_leftmost pre post hpre

/-! ## The filters -/

/-- C3: a repository that survives the archive filter is absent from the final
manifest exactly when its normalized clone URL, lower-cased, contains the
lower-cased form of a non-empty trimmed term of the exclusion string split on
commas. An exclusion string of commas and white space only excludes nothing, and
the list `bar, baz` excludes the clone URL `git@host:alice/Bar.git`. -/
theorem exclusion_filter (sortSlice : SliceSort Repository) (hS : SortContract sortSlice)
    (caseTable : Char → Char) (f : Flags) (pfx : Str) (personal orgs : List Repository)
    (repo : Repository) (hmem : repo ∈ personal ++ orgs)
    (harch : repo.Archived = true → f.archived = true) :
    (entryOf f pfx repo ∉ manifestEntries sortSlice caseTable f pfx personal orgs ↔
        MatchesExclusion caseTable f.exclude (cloneURL f repo)) ∧
      ((∀ c ∈ f.exclude, c = ',' ∨ unicodeIsSpace c = true) →
        entryOf f pfx repo ∈ manifestEntries sortSlice caseTable f pfx personal orgs) ∧
      (f.exclude = "bar, baz".toList → cloneURL f repo = "git@host:alice/Bar.git".toList →
        entryOf f pfx repo ∉ manifestEntries sortSlice caseTable f pfx personal orgs) := by
  have key := entry_mem_manifest_iff sortSlice hS caseTable f pfx personal orgs repo hmem harch
  refine ⟨?_, ?_, ?_⟩
  · rw [key, not_not]
  · intro h
    rw [key]
    rintro ⟨t, ht, _⟩
    rw [exclusionTerms_eq_nil f.exclude h] at ht
    exact absurd ht (List.not_mem_nil t)
  · intro hex hclone
    rw [key, not_not, hex, hclone]
    refine ⟨"bar".toList, by decide, ?_⟩
    rw [stringsToLower_ascii caseTable _ (by decide),
      stringsToLower_ascii caseTable "git@host:alice/Bar.git".toList (by decide),
      ← stringsContains_iff]
    decide

theorem exclusion_filter_witness :
    entryOf { defaultFlags with archived := true, exclude := "bar, baz".toList } "/r".toList
        repoBar ∉
      manifestEntries insertionSort id
        { defaultFlags with archived := true, exclude := "bar, baz".toList } "/r".toList
        [repoFoo, repoBar] [repoOrg] :=
  (exclusion_filter insertionSort (insertionSort_contract _) id
    { defaultFlags with archived := true, exclude := "bar, baz".toList } "/r".toList
    [repoFoo, repoBar] [repoOrg] repoBar (by decide) (by decide)).2.2 (by decide) (by decide)

/-- C4 as stated fails: with `-archived` set and the exclusion list `bar`, the
archived repository `alice/Bar` is fetched and yet has no entry in the manifest. -/
theorem archived_counterexample :
    repoBar.Archived = true ∧
      ({ defaultFlags with archived := true, exclude := "bar".toList } : Flags).archived = true ∧
      repoBar ∈ [repoFoo, repoBar] ++ [repoOrg] ∧
      manifestEntries insertionSort id
          { defaultFlags with archived := true, exclude := "bar".toList } "/r".toList
          [repoFoo, repoBar] [repoOrg] =
        [entryOf defaultFlags "/r".toList repoOrg, entryOf defaultFlags "/r".toList repoFoo] ∧
      entryOf { defaultFlags with archived := true, exclude := "bar".toList } "/r".toList
          repoBar ∉
        manifestEntries insertionSort id
          { defaultFlags with archived := true, exclude := "bar".toList } "/r".toList
          [repoFoo, repoBar] [repoOrg] := by
  decide

/-- C4, amended: a fetched archived repository is present in the final manifest if
and only if the archive-inclusion setting is true and its normalized clone URL
matches no exclusion term. With the setting false, every entry of the manifest is
the entry of a fetched repository that is not archived. -/
theorem archived_filter (sortSlice : SliceSort Repository) (hS : SortContract sortSlice)
    (caseTable : Char → Char) (f : Flags) (pfx : Str) (personal orgs : List Repository)
    (repo : Repository) (hmem : repo ∈ personal ++ orgs) (ha : repo.Archived = true) :
    (Present sortSlice caseTable f pfx personal orgs repo ↔
        f.archived = true ∧ ¬ MatchesExclusion caseTable f.exclude (cloneURL f repo)) ∧
      (f.archived = false →
        ∀ e ∈ manifestEntries sortSlice caseTable f pfx personal orgs,
          ∃ r ∈ personal ++ orgs, r.Archived = false ∧ e = entryOf f pfx r) := by
  constructor
  · unfold Present
    constructor
    · rintro ⟨e, he, _⟩
      rw [formatRepo_eq_some] at he
      exact ⟨he.1 ha, he.2.1⟩
    · rintro ⟨h1, h2⟩
      have hf := (formatRepo_eq_some caseTable f pfx repo (entryOf f pfx repo)).mpr
        ⟨fun _ => h1, h2, rfl⟩
      exact ⟨_, hf, (mem_manifestEntries sortSlice hS _ _ _ _ _ _).mpr ⟨repo, hmem, hf⟩⟩
  · intro hf e he
    obtain ⟨r, hr, hfr⟩ := (mem_manifestEntries sortSlice hS _ _ _ _ _ _).mp he
    rw [formatRepo_eq_some] at hfr
    refine ⟨r, hr, ?_, hfr.2.2⟩
    cases hra : r.Archived with
    | false => rfl
    | true =>
      have := hfr.1 hra
      rw [hf] at this
      exact absurd this Bool.false_ne_true

theorem archived_filter_witness :
    Present insertionSort id { defaultFlags with archived := true } "/r".toList
        [repoFoo, repoBar] [repoOrg] repoBar ∧
      ¬ Present insertionSort id defaultFlags "/r".toList [repoFoo, repoBar] [repoOrg]
        repoBar :=
  ⟨(archived_filter insertionSort (insertionSort_contract _) id
      { defaultFlags with archived := true } "/r".toList [repoFoo, repoBar] [repoOrg] repoBar
      (by decide) (by decide)).1.mpr
      ⟨by decide, by
        rintro ⟨t, ht, _⟩
        have hnil : exclusionTerms
            ({ defaultFlags with archived := true } : Flags).exclude = [] := by decide
        rw [hnil] at ht
        exact absurd ht (List.not_mem_nil t)⟩,
    fun h =>
      absurd ((archived_filter insertionSort (insertionSort_contract _) id defaultFlags
        "/r".toList [repoFoo, repoBar] [repoOrg] repoBar (by decide) (by decide)).1.mp h).1
        (by decide)⟩

/-- C8: every entry of the manifest stems from a fetched repository: its name is the
full name of the repository, its prefix the run-wide directory prefix, and its source
is built from the HTTP clone URL in HTTP mode and from the SSH clone URL otherwise,
with `ssh://` put in front whenever the ssh flag is set (in HTTP mode too) and
nothing put in front when it is not, and the `:4444:` hack applied last. -/
theorem clone_selection (sortSlice : SliceSort Repository) (hS : SortContract sortSlice)
    (caseTable : Char → Char) (f : Flags) (pfx : Str) (personal orgs : List Repository)
    (e : Repo) (he : e ∈ manifestEntries sortSlice caseTable f pfx personal orgs) :
    ∃ repo ∈ personal ++ orgs,
      e.Name = repo.FullName ∧ e.Prefix = pfx ∧
      e.Source = stringsReplaceAll
        ((if f.ssh = true then "ssh://".toList else []) ++
          (if f.http = true then repo.CloneURL else repo.SSHURL)) quirkOld quirkNew := by
  obtain ⟨repo, hr, hfr⟩ := (mem_manifestEntries sortSlice hS _ _ _ _ _ _).mp he
  rw [formatRepo_eq_some] at hfr
  refine ⟨repo, hr, ?_, ?_, ?_⟩
  · rw [hfr.2.2]; rfl
  · rw [hfr.2.2]; rfl
  · rw [hfr.2.2]
    show cloneURL f repo = _
    unfold cloneURL selectClone
    cases f.ssh <;> cases f.http <;> simp

theorem clone_selection_witness :
    ∃ repo ∈ [repoFoo] ++ [repoOrg],
      (entryOf { defaultFlags with http := true, ssh := true } "/r".toList repoFoo).Name =
          repo.FullName ∧
        (entryOf { defaultFlags with http := true, ssh := true } "/r".toList repoFoo).Prefix =
          "/r".toList ∧
        (entryOf { defaultFlags with http := true, ssh := true } "/r".toList repoFoo).Source =
          stringsReplaceAll
            ((if ({ defaultFlags with http := true, ssh := true } : Flags).ssh = true
                then "ssh://".toList else []) ++
              (if ({ defaultFlags with http := true, ssh := true } : Flags).http = true
                then repo.CloneURL else repo.SSHURL)) quirkOld quirkNew :=
  clone_selection insertionSort (insertionSort_contract _) id
    { defaultFlags with http := true, ssh := true } "/r".toList [repoFoo] [repoOrg]
    (entryOf { defaultFlags with http := true, ssh := true } "/r".toList repoFoo) (by decide)

/-! ## Scope validation -/

theorem badScope_iff (v : Str) : badScope v = true ↔ v ∉ validScopes := by
  simp only [badScope, validScopes, List.mem_cons, List.mem_singleton, List.not_mem_nil,
    or_false, not_or, decide_eq_true_eq, ne_eq]
  tauto

/-- C6 as stated fails: with `-version` set and the personal scope `bogus`, the run
prints the version and ends; the configuration error is not reported. -/
theorem scope_validation_counterexample :
    ({ defaultFlags with versionCmd := true, getPersonal := "bogus".toList } : Flags).getPersonal
        ∉ validScopes ∧
      main insertionSort id
          { defaultFlags with versionCmd := true, getPersonal := "bogus".toList }
          sampleEnv pagedHost 5 =
        some [Event.stdout "github2mr unreleased\n".toList] ∧
      Event.stderr validSettingsMsg ∉ [Event.stdout "github2mr unreleased\n".toList] := by
  decide

/-- C6, amended: when the personal or the organizational scope is outside `public`,
`private`, `none`, `all` and `-version` is not set, the whole run is the one
diagnostic `Valid settings are ...` on the error stream: no call of `Login`,
`getPersonalRepos` or `getOrganizationalRepositores`, and no manifest. With
`-version` set the whole run is the version line, again without any call. -/
theorem scope_validation (sortSlice : SliceSort Repository) (caseTable : Char → Char)
    (f : Flags) (env : Env) (h : Host) (fuel : Nat)
    (hbad : f.getPersonal ∉ validScopes ∨ f.getOrgs ∉ validScopes) :
    (f.versionCmd = false →
        main sortSlice caseTable f env h fuel = some [Event.stderr validSettingsMsg]) ∧
      (f.versionCmd = true →
        main sortSlice caseTable f env h fuel =
          some [Event.stdout ("github2mr ".toList ++ version ++ "\n".toList)]) := by
  constructor
  · intro hv
    unfold main
    rw [if_neg (by simp [hv])]
    rcases hbad with hb | hb
    · rw [if_pos ((badScope_iff _).mpr hb)]
    · by_cases hp : badScope f.getPersonal = true
      · rw [if_pos hp]
      · rw [if_neg hp, if_pos ((badScope_iff _).mpr hb)]
  · intro hv
    unfold main
    rw [if_pos hv]

theorem scope_validation_witness :
    main insertionSort id { defaultFlags with getOrgs := "bogus".toList } sampleEnv pagedHost 5 =
      some [Event.stderr validSettingsMsg] :=
  (scope_validation insertionSort id { defaultFlags with getOrgs := "bogus".toList } sampleEnv
    pagedHost 5 (Or.inr (by decide))).1 rfl

/-! ## Rendering -/

theorem render_blocks : ∀ es : List Repo,
    (es.map (fun e =>
        "\n[".toList ++ (e.Prefix ++ ("/".toList ++ (e.Name ++
          ("]\ncheckout = git clone ".toList ++ (e.Source ++ "\n".toList))))))).flatten =
      unlines (es.map (fun e => [] :: entryBlock e)).flatten
  | [] => rfl
  | e :: es => by
    rw [List.map_cons, List.flatten_cons, render_blocks es]
    simp [unlines, entryBlock, List.append_assoc]

/-- C7: the rendered manifest, line by line: the header line with the number of
entries, a blank line, then for each entry in list order a blank line, the line
`[prefix/name]` and right after it the line `checkout = git clone source`, and a
last blank line. So the text starts with the header followed by a blank line, every
entry has one block, and consecutive blocks are one blank line apart. For no entries
the text is the header with `0 repositories` and blank lines only. -/
theorem render_layout (es : List Repo) :
    render es =
        unlines (headerLine es.length :: [] ::
          ((es.map (fun e => [] :: entryBlock e)).flatten ++ [[]])) ∧
      render [] = "# Generated by github2mr - 0 repositories\n\n\n".toList ∧
      ∀ l ∈ stringsSplit '\n' (render []),
        stringsHasPrefix l "[".toList = false ∧ stringsHasPrefix l "checkout".toList = false := by
  refine ⟨?_, by decide, by decide⟩
  have hb := render_blocks es
  simp only [render, tmpl, List.map_cons, List.map_nil, execNode, execItem, Field.get,
    List.flatten_cons, List.flatten_nil, List.append_nil] at hb ⊢
  rw [hb]
  simp [unlines, headerLine, List.append_assoc]

/-! ## Idempotence of the sort -/

/-- C10: with no `-prefix` given and an API base URL whose host name is `h`, the
directory prefix is the home directory, `/Repos/` and `h`, where the host
`api.github.com` becomes `github.com`; a non-empty `-prefix` is used as it is. It is
the prefix `main` hands to the formatting loop. -/
theorem repoPrefix_default (env : Env) (api h : Str) (hh : env.urlHostname api = some h) :
    repoPrefix env [] api =
        some (env.home ++ "/Repos/".toList ++
          (if h = "api.github.com".toList then "github.com".toList else h)) ∧
      (∀ p : Str, p ≠ [] → repoPrefix env p api = some p) ∧
      (∀ (sortSlice : SliceSort Repository) (caseTable : Char → Char) (f : Flags)
        (personal orgs : List Repository), f.api = api → f.dirPrefix = [] → f.output = [] →
        mainOutput sortSlice caseTable f env personal orgs =
          [Event.stdout (render (manifestEntries sortSlice caseTable f
            (env.home ++ "/Repos/".toList ++
              (if h = "api.github.com".toList then "github.com".toList else h))
            personal orgs) ++ "\n".toList)]) := by
  have h1 : repoPrefix env [] api =
      some (env.home ++ "/Repos/".toList ++
        (if h = "api.github.com".toList then "github.com".toList else h)) := by
    simp [repoPrefix, hh]
  refine ⟨h1, ?_, ?_⟩
  · intro p hp
    simp [repoPrefix, hp]
  · intro sortSlice caseTable f personal orgs hapi hpfx hout
    unfold mainOutput
    rw [hpfx, hapi, h1]
    simp [hout]

theorem repoPrefix_default_witness :
    repoPrefix sampleEnv [] "https://git.example.com/".toList =
        some "/home/alice/Repos/git.example.com".toList ∧
      repoPrefix sampleEnv [] "https://api.github.com/".toList =
        some "/home/alice/Repos/github.com".toList :=
  ⟨(repoPrefix_default sampleEnv "https://git.example.com/".toList "git.example.com".toList
      (by decide)).1.trans (by decide),
    (repoPrefix_default sampleEnv "https://api.github.com/".toList "api.github.com".toList
      (by decide)).1.trans (by decide)⟩

end Github2mr
